import Mathlib

/-!
Verification of the terminal system-monitor dashboard (`monitor.py` /
`monitorV1.py`).  The Python helpers are shallowly embedded as executable
Lean definitions: strings stay strings, Python floats are modelled as
rationals (`ℚ`), machine file/socket/clock effects become explicit
parameters, and dictionaries become association lists with Python's
insertion-order update semantics.
-/

namespace Monitor

/-! ## ANSI control-sequence stripping (`visible_len`, monitor.py lines 243-249)

The source strips color codes with a regex: an ESC byte followed by
either a single byte from the class 0x40-0x5A or 0x5C-0x5F (a two-byte
escape), or by a literal open bracket, then any number of parameter
bytes (0x30-0x3F), then any number of intermediate bytes (0x20-0x2F),
then one final byte (0x40-0x7E) — a CSI sequence.  The character-class
predicates below transcribe those byte ranges.  Since the three CSI
classes are pairwise disjoint, the regex engine's greedy scan is
deterministic and is faithfully rendered by the `dropWhile` chain in
`csiTail`. -/

def ESC : Char := '\x1B'

def isParamByte (c : Char) : Bool := 0x30 ≤ c.toNat && c.toNat ≤ 0x3F

def isInterByte (c : Char) : Bool := 0x20 ≤ c.toNat && c.toNat ≤ 0x2F

def isFinalByte (c : Char) : Bool := 0x40 ≤ c.toNat && c.toNat ≤ 0x7E

def isFeByte (c : Char) : Bool :=
  (0x40 ≤ c.toNat && c.toNat ≤ 0x5A) || (0x5C ≤ c.toNat && c.toNat ≤ 0x5F)

theorem dropWhile_length_le (p : Char → Bool) (l : List Char) :
    (l.dropWhile p).length ≤ l.length := by
  induction l with
  | nil => simp
  | cons c rest ih =>
    rw [List.dropWhile_cons]
    by_cases hc : p c = true
    · simp only [hc, if_true]
      exact Nat.le_succ_of_le ih
    · simp [hc]

/-- The tail remaining after matching the parameter bytes, intermediate
bytes and final byte at the front of `l` (the part of a CSI sequence
after the ESC and the open bracket), or `none` if there is no match. -/
def csiTail (l : List Char) : Option (List Char) :=
  match (l.dropWhile isParamByte).dropWhile isInterByte with
  | [] => none
  | f :: r => if isFinalByte f then some r else none

/-- The tail remaining after matching the part of the regex that follows
the ESC byte (either a two-byte escape's second byte, or an open bracket
and then a CSI body) at the front of `l`, or `none`. -/
def ansiMatch : List Char → Option (List Char)
  | [] => none
  | d :: rest =>
    if d = '[' then csiTail rest
    else if isFeByte d then some rest
    else none

theorem csiTail_some_length (l r : List Char) (h : csiTail l = some r) :
    r.length < l.length := by
  unfold csiTail at h
  rcases h2 : (l.dropWhile isParamByte).dropWhile isInterByte with _ | ⟨f, t⟩
  · rw [h2] at h
    exact absurd h (by simp)
  · rw [h2] at h
    by_cases hf : isFinalByte f
    · simp only [hf, if_true, Option.some.injEq] at h
      subst h
      have e1 : (l.dropWhile isParamByte).length ≤ l.length :=
        dropWhile_length_le isParamByte l
      have e2 : ((l.dropWhile isParamByte).dropWhile isInterByte).length ≤
          (l.dropWhile isParamByte).length :=
        dropWhile_length_le isInterByte (l.dropWhile isParamByte)
      rw [h2] at e2
      simp only [List.length_cons] at e2
      omega
    · simp [hf] at h

theorem ansiMatch_some_length (l r : List Char) (h : ansiMatch l = some r) :
    r.length < l.length := by
  match l with
  | [] => simp [ansiMatch] at h
  | d :: rest =>
    simp only [ansiMatch] at h
    by_cases hd : d = '['
    · rw [if_pos hd] at h
      have := csiTail_some_length rest r h
      simp only [List.length_cons]
      omega
    · rw [if_neg hd] at h
      by_cases hf : isFeByte d
      · simp only [hf, if_true, Option.some.injEq] at h
        subst h
        simp
      · simp [hf] at h

/-- `re.sub` with the pattern above, on the character list of the string:
scan left to right; at an `ESC` that starts a match, delete the whole
match and continue after it; otherwise keep the character. -/
def stripAnsi : List Char → List Char
  | [] => []
  | c :: rest =>
    if c = ESC then
      if hm : (ansiMatch rest).isSome then stripAnsi ((ansiMatch rest).get hm)
      else c :: stripAnsi rest
    else c :: stripAnsi rest
termination_by l => l.length
decreasing_by
  · have h := ansiMatch_some_length _ _ (Option.some_get hm).symm
    simp only [List.length_cons]
    omega
  · simp only [List.length_cons]
    omega
  · simp only [List.length_cons]
    omega

/-- `visible_len` (monitor.py lines 243-249): the length of the string
after all ANSI control sequences are removed. -/
def visible_len (s : String) : ℕ := (stripAnsi s.data).length

theorem stripAnsi_nil : stripAnsi [] = [] := by
  rw [stripAnsi]

theorem stripAnsi_cons_of_ne (c : Char) (l : List Char) (hc : ¬ c = ESC) :
    stripAnsi (c :: l) = c :: stripAnsi l := by
  rw [stripAnsi]
  simp [hc]

theorem stripAnsi_esc_of_match (l r : List Char) (h : ansiMatch l = some r) :
    stripAnsi (ESC :: l) = stripAnsi r := by
  rw [stripAnsi]
  simp [h]

theorem stripAnsi_esc_of_none (l : List Char) (h : ansiMatch l = none) :
    stripAnsi (ESC :: l) = ESC :: stripAnsi l := by
  rw [stripAnsi]
  simp [h]

theorem interByte_not_param (c : Char) (h : isInterByte c = true) :
    isParamByte c = false := by
  simp only [isInterByte, Bool.and_eq_true, decide_eq_true_eq] at h
  cases hb : isParamByte c
  · rfl
  · exfalso
    simp only [isParamByte, Bool.and_eq_true, decide_eq_true_eq] at hb
    omega

theorem finalByte_not_param (c : Char) (h : isFinalByte c = true) :
    isParamByte c = false := by
  simp only [isFinalByte, Bool.and_eq_true, decide_eq_true_eq] at h
  cases hb : isParamByte c
  · rfl
  · exfalso
    simp only [isParamByte, Bool.and_eq_true, decide_eq_true_eq] at hb
    omega

theorem finalByte_not_inter (c : Char) (h : isFinalByte c = true) :
    isInterByte c = false := by
  simp only [isFinalByte, Bool.and_eq_true, decide_eq_true_eq] at h
  cases hb : isInterByte c
  · rfl
  · exfalso
    simp only [isInterByte, Bool.and_eq_true, decide_eq_true_eq] at hb
    omega

theorem dropWhile_append_of_all (p : Char → Bool) (l m : List Char)
    (h : ∀ c ∈ l, p c = true) :
    List.dropWhile p (l ++ m) = List.dropWhile p m := by
  induction l with
  | nil => simp
  | cons c rest ih =>
    have hc : p c = true := h c (by simp)
    simp only [List.cons_append, List.dropWhile_cons, hc, if_true]
    exact ih fun d hd => h d (by simp [hd])

theorem dropWhile_cons_of_neg (p : Char → Bool) (c : Char) (l : List Char)
    (h : p c = false) : List.dropWhile p (c :: l) = c :: l := by
  simp [List.dropWhile_cons, h]

/-- A whole CSI color sequence at the front of the character list is
deleted by the stripper. -/
theorem stripAnsi_csi_append (ps ins : List Char) (f : Char) (rest : List Char)
    (hp : ∀ c ∈ ps, isParamByte c = true) (hi : ∀ c ∈ ins, isInterByte c = true)
    (hf : isFinalByte f = true) :
    stripAnsi (ESC :: '[' :: (ps ++ ins ++ f :: rest)) = stripAnsi rest := by
  apply stripAnsi_esc_of_match
  show ansiMatch ('[' :: (ps ++ ins ++ f :: rest)) = some rest
  simp only [ansiMatch, if_pos rfl]
  have h1 : List.dropWhile isParamByte (ps ++ ins ++ f :: rest)
      = List.dropWhile isParamByte (ins ++ f :: rest) := by
    rw [List.append_assoc]
    exact dropWhile_append_of_all isParamByte ps (ins ++ f :: rest) hp
  have h2 : List.dropWhile isParamByte (ins ++ f :: rest) = ins ++ f :: rest := by
    cases ins with
    | nil =>
      simp only [List.nil_append]
      exact dropWhile_cons_of_neg isParamByte f rest (finalByte_not_param f hf)
    | cons i it =>
      simp only [List.cons_append]
      exact dropWhile_cons_of_neg isParamByte i (it ++ f :: rest)
        (interByte_not_param i (hi i (by simp)))
  have h3 : List.dropWhile isInterByte (ins ++ f :: rest) = f :: rest := by
    rw [dropWhile_append_of_all isInterByte ins (f :: rest) hi]
    exact dropWhile_cons_of_neg isInterByte f rest (finalByte_not_inter f hf)
  simp only [csiTail, h1, h2, h3, hf, if_true]

/-- A two-byte escape sequence at the front of the character list is
deleted by the stripper. -/
theorem stripAnsi_fe_append (d : Char) (rest : List Char)
    (hd : isFeByte d = true) :
    stripAnsi (ESC :: d :: rest) = stripAnsi rest := by
  apply stripAnsi_esc_of_match
  have hne : ¬ d = '[' := by
    intro he
    subst he
    simp only [isFeByte, Bool.or_eq_true, Bool.and_eq_true, decide_eq_true_eq] at hd
    rcases hd with ⟨_, h2⟩ | ⟨h1, _⟩
    · exact absurd h2 (by decide)
    · exact absurd h1 (by decide)
  simp [ansiMatch, hne, hd]

/-- Characters other than ESC pass through the stripper unchanged. -/
theorem stripAnsi_plain_append (l m : List Char) (h : ∀ c ∈ l, ¬ c = ESC) :
    stripAnsi (l ++ m) = l ++ stripAnsi m := by
  induction l with
  | nil => simp
  | cons c rest ih =>
    simp only [List.cons_append]
    rw [stripAnsi_cons_of_ne c (rest ++ m) (h c (by simp))]
    rw [ih fun d hd => h d (by simp [hd])]

/-- On a string with no ESC byte, `visible_len` is the ordinary length. -/
theorem visible_len_of_no_esc (s : String)
    (h : ∀ c ∈ s.data, ¬ c = ESC) : visible_len s = s.length := by
  unfold visible_len
  have : stripAnsi s.data = s.data ++ stripAnsi [] := by
    have := stripAnsi_plain_append s.data [] h
    simpa using this
  rw [this, stripAnsi_nil, List.append_nil]
  rfl

/-! ## Dictionaries

Python dict literals and updates keep insertion order; `{**a, **b}`
starts from `a` and applies `b`'s entries in order, overwriting in place.
Association lists with `dictSet` reproduce exactly that. -/

def dictGet {α : Type} : List (String × α) → String → Option α
  | [], _ => none
  | (k, v) :: rest, key => if k = key then some v else dictGet rest key

def dictHasKey {α : Type} (d : List (String × α)) (k : String) : Bool :=
  (dictGet d k).isSome

def dictSet {α : Type} : List (String × α) → String → α → List (String × α)
  | [], key, v => [(key, v)]
  | (k, v1) :: rest, key, v =>
    if k = key then (k, v) :: rest else (k, v1) :: dictSet rest key v

def dictMerge {α : Type} (a b : List (String × α)) : List (String × α) :=
  b.foldl (fun d kv => dictSet d kv.1 kv.2) a

/-! ## ANSI color table (monitor.py lines 61-71) and `get_ansi` (103-107) -/

def COLORS : List (String × String) :=
  [("reset", "\x1B[0m"), ("cyan", "\x1B[36m"), ("green", "\x1B[32m"),
   ("yellow", "\x1B[33m"), ("red", "\x1B[31m"), ("blue", "\x1B[34m"),
   ("magenta", "\x1B[35m"), ("white", "\x1B[37m"), ("bold", "\x1B[1m")]

/-- `get_ansi` (monitor.py lines 103-107): `COLORS.get(color_name,
COLORS['white'])`.  The inner `getD ""` only models the always-successful
indexing of the literal `COLORS` dict at `"white"`. -/
def get_ansi (color_name : String) : String :=
  (dictGet COLORS color_name).getD ((dictGet COLORS "white").getD "")

theorem dictGet_mem {α : Type} (l : List (String × α)) (k : String) (v : α)
    (h : dictGet l k = some v) : v ∈ l.map Prod.snd := by
  induction l with
  | nil => simp [dictGet] at h
  | cons kv rest ih =>
    match kv with
    | (k1, v1) =>
      simp only [dictGet] at h
      by_cases he : k1 = k
      · rw [if_pos he] at h
        simp only [Option.some.injEq] at h
        subst h
        simp
      · rw [if_neg he] at h
        simp only [List.map_cons, List.mem_cons]
        exact Or.inr (ih h)

theorem get_ansi_mem (n : String) : get_ansi n ∈ COLORS.map Prod.snd := by
  unfold get_ansi
  cases h : dictGet COLORS n with
  | some v =>
    simp only [Option.getD_some]
    exact dictGet_mem COLORS n v h
  | none =>
    simp only [Option.getD_none]
    decide

/-- Every string the color table can produce is deleted whole by the
stripper. -/
theorem stripAnsi_color_append (v : String) (rest : List Char)
    (hv : v ∈ COLORS.map Prod.snd) :
    stripAnsi (v.data ++ rest) = stripAnsi rest := by
  fin_cases hv
  · exact stripAnsi_csi_append ['0'] [] 'm' rest (by decide) (by decide) (by decide)
  · exact stripAnsi_csi_append ['3', '6'] [] 'm' rest (by decide) (by decide) (by decide)
  · exact stripAnsi_csi_append ['3', '2'] [] 'm' rest (by decide) (by decide) (by decide)
  · exact stripAnsi_csi_append ['3', '3'] [] 'm' rest (by decide) (by decide) (by decide)
  · exact stripAnsi_csi_append ['3', '1'] [] 'm' rest (by decide) (by decide) (by decide)
  · exact stripAnsi_csi_append ['3', '4'] [] 'm' rest (by decide) (by decide) (by decide)
  · exact stripAnsi_csi_append ['3', '5'] [] 'm' rest (by decide) (by decide) (by decide)
  · exact stripAnsi_csi_append ['3', '7'] [] 'm' rest (by decide) (by decide) (by decide)
  · exact stripAnsi_csi_append ['1'] [] 'm' rest (by decide) (by decide) (by decide)

theorem stripAnsi_get_ansi_append (n : String) (rest : List Char) :
    stripAnsi ((get_ansi n).data ++ rest) = stripAnsi rest :=
  stripAnsi_color_append (get_ansi n) rest (get_ansi_mem n)

/-- The color strings never contain the gauge glyphs. -/
theorem get_ansi_count_glyph (n : String) (c : Char)
    (hc : c = '█' ∨ c = '-') : (get_ansi n).data.count c = 0 := by
  have hv := get_ansi_mem n
  generalize hg : get_ansi n = v at hv ⊢
  rcases hc with hc | hc <;> subst hc <;> fin_cases hv <;> decide

/-! ## Configuration record (DEFAULT_CONFIG, monitor.py lines 36-54)

Record view of the configuration dictionary, used by the rendering and
logging helpers (which read `cfg['thresholds']['mid']`,
`cfg['colors']['value_low']`, `cfg['logging_enabled']`, ...).  The JSON
view used by `load_config` appears further below. -/

structure Config where
  refresh_rate : ℚ
  ping_target : String
  ping_port : ℕ
  show_cpu_per_core : Bool
  logging_enabled : Bool
  log_file : String
  thresholds_mid : ℚ
  thresholds_high : ℚ
  colors_label : String
  colors_value_low : String
  colors_value_mid : String
  colors_value_high : String
  colors_alert : String

/-- The values of `DEFAULT_CONFIG`, as a record (fields in source order). -/
def defaultConfigRec : Config :=
  ⟨1/2, "8.8.8.8", 53, true, false, "system_metrics.csv",
   50, 80, "red", "green", "yellow", "red", "red"⟩

/-- `COLORS['reset']`. -/
def S_RESET : String := (dictGet COLORS "reset").getD ""

/-! ## Color tier (`get_color_by_percent`, monitor.py lines 109-120) -/

def get_color_by_percent (cfg : Config) (percent : ℚ) : String :=
  if percent < cfg.thresholds_mid then get_ansi cfg.colors_value_low
  else if percent < cfg.thresholds_high then get_ansi cfg.colors_value_mid
  else get_ansi cfg.colors_value_high

/-! ## Gauge (`draw_bar`, monitor.py lines 180-199)

Python floats are modelled as rationals; `length * percent // 100`
is floor division, and `int(...)` of an already-floored value is that
floor, so `filled` before clamping is `⌊length * percent / 100⌋`. -/

def draw_bar (cfg : Config) (percent : ℚ) (length : ℕ) : String :=
  let filled : ℤ := min (length : ℤ) (max 0 ⌊(length : ℚ) * percent / 100⌋)
  let color := get_color_by_percent cfg percent
  let bar := String.mk (List.replicate filled.toNat '█' ++
    List.replicate ((length : ℤ) - filled).toNat '-')
  "[" ++ color ++ bar ++ S_RESET ++ "]"

/-! ## Bordered row (`W`, monitor.py line 19; `draw_row`, lines 259-269)

`draw_row` computes `padding = W - 2 - v_len - 2`, clamps it at zero and
prints border, space, content, padding, space, border.  We model the row
string handed to the printer (`pr` additionally prepends the fixed left
margin in monitor.py; monitorV1.py prints the row as is). -/

def W : ℕ := 66

def draw_row (content : String) (border_color : String) : String :=
  let v_len := visible_len content
  let padding : ℤ := (W : ℤ) - 2 - (v_len : ℤ) - 2
  let padding : ℤ := if padding < 0 then 0 else padding
  border_color ++ "║" ++ S_RESET ++ " " ++ content ++
    String.mk (List.replicate padding.toNat ' ') ++ " " ++
    border_color ++ "║" ++ S_RESET

/-! ## Byte formatting (`get_size`, monitor.py lines 122-131)

CPython's fixed-point formatting with two decimals rounds half to even
on the value; the magnitudes the claims exercise are exactly
representable, so the rational model agrees with the float code there.
The Python loop has no final `return`: if the magnitude is still at
least 1024 after the last (`"P"`) unit, the function falls off the end
and returns `None`, modelled by the `Option`. -/

def roundHalfEven (q : ℚ) : ℤ :=
  let f := ⌊q⌋
  let r := q - f
  if r < 1/2 then f
  else if 1/2 < r then f + 1
  else if f % 2 = 0 then f else f + 1

/-- Python `f"{q:.2f}"` (for the nonnegative magnitudes `get_size`
formats). -/
def format2f (q : ℚ) : String :=
  let n : ℤ := roundHalfEven (q * 100)
  let sign := if n < 0 then "-" else ""
  let m := n.natAbs
  sign ++ toString (m / 100) ++ "." ++
    (if m % 100 < 10 then "0" else "") ++ toString (m % 100)

def get_size_aux (suffix : String) : List String → ℚ → Option String
  | [], _ => none
  | unit :: rest, bytes =>
    if bytes < 1024 then some (format2f bytes ++ unit ++ suffix)
    else get_size_aux suffix rest (bytes / 1024)

def get_size (bytes : ℚ) (suffix : String) : Option String :=
  get_size_aux suffix ["", "K", "M", "G", "T", "P"] bytes

/-! ## Network throughput (main loop, monitor.py lines 309, 323-325)

Each iteration computes `sent = (net.bytes_sent - old_net.bytes_sent) /
cfg['refresh_rate']` (and likewise `recv`), then stores `old_net = net`.
`net_loop` runs that update over a whole list of raw counter samples. -/

structure NetIO where
  bytes_sent : ℚ
  bytes_recv : ℚ
deriving DecidableEq

/-- One iteration's `(sent, recv)` rate pair. -/
def net_rates (old_net net : NetIO) (refresh_rate : ℚ) : ℚ × ℚ :=
  ((net.bytes_sent - old_net.bytes_sent) / refresh_rate,
   (net.bytes_recv - old_net.bytes_recv) / refresh_rate)

/-- The loop over successive raw samples, carrying `old_net` exactly as
the source does (`old_net = net` at the end of each iteration). -/
def net_loop : NetIO → List NetIO → ℚ → List (ℚ × ℚ)
  | _, [], _ => []
  | old_net, net :: rest, rr => net_rates old_net net rr :: net_loop net rest rr

/-! ## Connectivity probe (`get_ping`, monitor.py lines 208-222)

The socket and the clock are external: the environment either fails the
connect step with some error, or lets it succeed with wall-clock
readings `t0` (before) and `t1` (after).  The `try`/`except` around the
whole body maps every error to `None`. -/

inductive ProbeError where
  | timeout
  | refused
  | unreachable
  | dns
deriving DecidableEq

/-- `s.settimeout(0.5)`: the bound handed to the socket, in seconds. -/
def ping_timeout : ℚ := 1/2

/-- The `try` body: raise (`.error`) or return the elapsed time in
milliseconds. -/
def get_ping_body (connect : Option ProbeError) (t0 t1 : ℚ) :
    Except ProbeError ℚ :=
  match connect with
  | some e => Except.error e
  | none => Except.ok ((t1 - t0) * 1000)

/-- `get_ping`: the body wrapped in `except: return None`. -/
def get_ping (connect : Option ProbeError) (t0 t1 : ℚ) : Option ℚ :=
  match get_ping_body connect t0 t1 with
  | Except.ok v => some v
  | Except.error _ => none

/-! ## Metrics logging (`log_metrics`, monitor.py lines 224-237)

The CSV file is modelled as `Option (List (List CsvField))`: `none` when
the file does not exist, otherwise the list of rows already written.
Field values stay structured (`csv.writer` stringification is not part
of any claim). -/

inductive CsvField where
  | str : String → CsvField
  | num : ℚ → CsvField
deriving DecidableEq

/-- `datetime.now().strftime("%H:%M:%S")`, from the clock's
hour/minute/second. -/
def pad2 (n : ℕ) : String := (if n < 10 then "0" else "") ++ toString n

def formatHMS (h m s : ℕ) : String := pad2 h ++ ":" ++ pad2 m ++ ":" ++ pad2 s

def csv_header : List CsvField :=
  [CsvField.str "Time", CsvField.str "CPU", CsvField.str "RAM",
   CsvField.str "Disk", CsvField.str "Down", CsvField.str "Up",
   CsvField.str "Ping"]

/-- The data row; `ping or 0` maps both `None` and a zero reading to 0. -/
def log_row (h m s : ℕ) (cpu ram disk down up : ℚ) (ping : Option ℚ) :
    List CsvField :=
  [CsvField.str (formatHMS h m s), CsvField.num cpu, CsvField.num ram,
   CsvField.num disk, CsvField.num down, CsvField.num up,
   CsvField.num (match ping with
     | none => 0
     | some p => if p = 0 then 0 else p)]

def log_metrics (cfg : Config) (file : Option (List (List CsvField)))
    (h m s : ℕ) (cpu ram disk down up : ℚ) (ping : Option ℚ) :
    Option (List (List CsvField)) :=
  if cfg.logging_enabled = false then file
  else
    match file with
    | some rows => some (rows ++ [log_row h m s cpu ram disk down up ping])
    | none => some ([csv_header] ++ [log_row h m s cpu ram disk down up ping])

/-- One full sample's inputs to `log_metrics`. -/
structure SampleRow where
  h : ℕ
  m : ℕ
  s : ℕ
  cpu : ℚ
  ram : ℚ
  disk : ℚ
  down : ℚ
  up : ℚ
  ping : Option ℚ

def log_row_of (x : SampleRow) : List CsvField :=
  log_row x.h x.m x.s x.cpu x.ram x.disk x.down x.up x.ping

/-- Several consecutive `log_metrics` calls against the same file. -/
def log_run (cfg : Config) (file : Option (List (List CsvField)))
    (xs : List SampleRow) : Option (List (List CsvField)) :=
  xs.foldl
    (fun f x => log_metrics cfg f x.h x.m x.s x.cpu x.ram x.disk x.down x.up x.ping)
    file

/-! ## JSON configuration model (`load_config`, monitor.py lines 80-101)

`json.load` values, and `DEFAULT_CONFIG` as written in the source.
`load_config` merges shallowly (`cfg = {**DEFAULT_CONFIG, **loaded}`),
then patches `cfg["colors"]["label"] = "red"` when the user document has
no `colors` key or its `colors` value has no `"label"` member; every
exception inside the `try` (including type errors from a non-dict
`colors`) lands in the bare `except` and yields the plain defaults. -/

inductive JValue where
  | jbool : Bool → JValue
  | jnum : ℚ → JValue
  | jstr : String → JValue
  | jobj : List (String × JValue) → JValue

def DEFAULT_CONFIG : List (String × JValue) :=
  [("refresh_rate", JValue.jnum (1/2)),
   ("ping_target", JValue.jstr "8.8.8.8"),
   ("ping_port", JValue.jnum 53),
   ("show_cpu_per_core", JValue.jbool true),
   ("logging_enabled", JValue.jbool false),
   ("log_file", JValue.jstr "system_metrics.csv"),
   ("thresholds", JValue.jobj [("mid", JValue.jnum 50), ("high", JValue.jnum 80)]),
   ("colors", JValue.jobj
     [("label", JValue.jstr "red"),
      ("value_low", JValue.jstr "green"),
      ("value_mid", JValue.jstr "yellow"),
      ("value_high", JValue.jstr "red"),
      ("alert", JValue.jstr "red")])]

/-- Substring test, for Python's `needle in haystack` on strings. -/
def strContainsSub (hay needle : String) : Bool :=
  (List.range (hay.length + 1)).any fun i => needle.isPrefixOf (hay.drop i)

/-- Python's `in` on a JSON value: key membership on dicts, substring on
strings, a `TypeError` (modelled `none`) on numbers and booleans. -/
def pyContains (needle : String) : JValue → Option Bool
  | JValue.jobj d => some (dictHasKey d needle)
  | JValue.jstr s => some (strContainsSub s needle)
  | _ => none

/-- The successful-parse branch of `load_config`: merge over the
defaults, then the `label` safety patch; `none`-valued steps (Python
exceptions) fall into the `except` branch, which reassigns the plain
defaults. -/
def mergeAndPatch (loaded : List (String × JValue)) : List (String × JValue) :=
  match (match dictGet loaded "colors" with
         | none => some true
         | some v => (pyContains "label" v).map (fun b => !b) : Option Bool) with
  | none => DEFAULT_CONFIG
  | some false => dictMerge DEFAULT_CONFIG loaded
  | some true =>
    match dictGet (dictMerge DEFAULT_CONFIG loaded) "colors" with
    | some (JValue.jobj c) =>
      dictSet (dictMerge DEFAULT_CONFIG loaded) "colors"
        (JValue.jobj (dictSet c "label" (JValue.jstr "red")))
    | _ => DEFAULT_CONFIG

/-- `load_config`: `none` = no `config.json`; `some none` = the file
exists but `json.load` raises; `some (some v)` = it parses to `v`
(merging a non-object raises, landing in the `except` branch). -/
def load_config : Option (Option JValue) → List (String × JValue)
  | none => DEFAULT_CONFIG
  | some none => DEFAULT_CONFIG
  | some (some (JValue.jobj loaded)) => mergeAndPatch loaded
  | some (some _) => DEFAULT_CONFIG

/-- Lookup of one color sub-key in a merged configuration. -/
def cfgColorGet (d : List (String × JValue)) (k : String) : Option JValue :=
  match dictGet d "colors" with
  | some (JValue.jobj c) => dictGet c k
  | _ => none

/-! ### Dictionary lemmas -/

theorem dictGet_set {α : Type} (d : List (String × α)) (k' k : String) (v : α) :
    dictGet (dictSet d k' v) k = if k' = k then some v else dictGet d k := by
  induction d with
  | nil =>
    simp only [dictSet, dictGet]
  | cons kv rest ih =>
    match kv with
    | (k1, v1) =>
      simp only [dictSet]
      by_cases h1 : k1 = k'
      · subst h1
        by_cases h2 : k1 = k <;> simp [dictGet, h2]
      · rw [if_neg h1]
        simp only [dictGet, ih]
        by_cases h2 : k1 = k <;> by_cases h3 : k' = k <;> simp_all

theorem dictHasKey_set {α : Type} (d : List (String × α)) (k' k : String)
    (v : α) (h : dictHasKey d k = true) :
    dictHasKey (dictSet d k' v) k = true := by
  unfold dictHasKey at h ⊢
  rw [dictGet_set]
  by_cases he : k' = k <;> simp [he, h]

theorem dictHasKey_merge {α : Type} (a b : List (String × α)) (k : String)
    (h : dictHasKey a k = true) : dictHasKey (dictMerge a b) k = true := by
  induction b generalizing a with
  | nil => exact h
  | cons kv rest ih => exact ih (dictSet a kv.1 kv.2) (dictHasKey_set a kv.1 k kv.2 h)

theorem dictGet_none_of_not_mem {α : Type} (l : List (String × α)) (k : String)
    (h : ¬ k ∈ l.map Prod.fst) : dictGet l k = none := by
  induction l with
  | nil => rfl
  | cons kv rest ih =>
    match kv with
    | (k1, v1) =>
      simp only [List.map_cons, List.mem_cons] at h
      push_neg at h
      simp only [dictGet]
      rw [if_neg fun he => h.1 he.symm]
      exact ih h.2

theorem dictGet_merge_of_none {α : Type} (a b : List (String × α)) (k : String)
    (h : dictGet b k = none) : dictGet (dictMerge a b) k = dictGet a k := by
  induction b generalizing a with
  | nil => rfl
  | cons kv rest ih =>
    match kv with
    | (k1, v1) =>
      simp only [dictGet] at h
      by_cases he : k1 = k
      · simp [he] at h
      · rw [if_neg he] at h
        show dictGet (dictMerge (dictSet a k1 v1) rest) k = dictGet a k
        rw [ih (dictSet a k1 v1) h, dictGet_set]
        exact if_neg he

theorem dictGet_merge_of_some {α : Type} (a b : List (String × α)) (k : String)
    (v : α) (hnd : (b.map Prod.fst).Nodup) (h : dictGet b k = some v) :
    dictGet (dictMerge a b) k = some v := by
  induction b generalizing a with
  | nil => simp [dictGet] at h
  | cons kv rest ih =>
    match kv with
    | (k1, v1) =>
      simp only [List.map_cons, List.nodup_cons] at hnd
      simp only [dictGet] at h
      by_cases he : k1 = k
      · rw [if_pos he] at h
        simp only [Option.some.injEq] at h
        subst h
        subst he
        show dictGet (dictMerge (dictSet a k1 v1) rest) k1 = some v1
        rw [dictGet_merge_of_none (dictSet a k1 v1) rest k1
          (dictGet_none_of_not_mem rest k1 hnd.1)]
        rw [dictGet_set]
        exact if_pos rfl
      · rw [if_neg he] at h
        exact ih (dictSet a k1 v1) hnd.2 h

/-- Computed shape of the successful-parse branch when the user document
has an object-valued `colors` entry. -/
theorem mergeAndPatch_of_colors_obj (loaded : List (String × JValue))
    (c : List (String × JValue)) (hnd : (loaded.map Prod.fst).Nodup)
    (hc : dictGet loaded "colors" = some (JValue.jobj c)) :
    mergeAndPatch loaded =
      (if dictHasKey c "label" = true then dictMerge DEFAULT_CONFIG loaded
       else dictSet (dictMerge DEFAULT_CONFIG loaded) "colors"
         (JValue.jobj (dictSet c "label" (JValue.jstr "red")))) := by
  have hmerge : dictGet (dictMerge DEFAULT_CONFIG loaded) "colors"
      = some (JValue.jobj c) :=
    dictGet_merge_of_some DEFAULT_CONFIG loaded "colors" _ hnd hc
  unfold mergeAndPatch
  rw [hc]
  simp only [pyContains]
  cases hl : dictHasKey c "label" with
  | true =>
    simp only [Option.map_some', Bool.not_true]
    simp
  | false =>
    simp only [Option.map_some', Bool.not_false]
    rw [hmerge]
    simp

/-- The user document from the spec's own merge example. -/
def USER_DOC : List (String × JValue) :=
  [("colors", JValue.jobj [("value_low", JValue.jstr "blue")])]

/-- **C1, counterexample.**  The merge is shallow: with the user document
`{"colors": {"value_low": "blue"}}`, the defaults give `colors.value_mid
= "yellow"` but the merged configuration has no `value_mid` sub-key at
all — the missing sub-keys of `colors` do *not* individually retain
their defaults (only `label` is patched back, and `value_low` is
overridden as expected). -/
theorem load_config_drops_colors_subkeys :
    cfgColorGet DEFAULT_CONFIG "value_mid" = some (JValue.jstr "yellow")
    ∧ cfgColorGet (load_config (some (some (JValue.jobj USER_DOC)))) "value_mid" = none
    ∧ cfgColorGet (load_config (some (some (JValue.jobj USER_DOC)))) "value_low"
        = some (JValue.jstr "blue")
    ∧ cfgColorGet (load_config (some (some (JValue.jobj USER_DOC)))) "label"
        = some (JValue.jstr "red") :=
  ⟨rfl, rfl, rfl, rfl⟩

/-- **C1, amended.**  The merged configuration retains every *top-level*
default field, but sub-key granularity holds only for `colors.label`:
when the user document supplies an object-valued `colors`, the merged
`colors.label` is the user's value if present and otherwise falls back
to its default `"red"`; the other missing sub-keys (`value_mid`,
`value_high`, `alert`, ...) are not restored (see the counterexample). -/
theorem load_config_merge_amended (loaded : List (String × JValue))
    (hnd : (loaded.map Prod.fst).Nodup) :
    (∀ k, dictHasKey DEFAULT_CONFIG k = true →
      dictHasKey (load_config (some (some (JValue.jobj loaded)))) k = true)
    ∧ (∀ c, dictGet loaded "colors" = some (JValue.jobj c) →
        cfgColorGet (load_config (some (some (JValue.jobj loaded)))) "label"
          = some ((dictGet c "label").getD (JValue.jstr "red"))) := by
  constructor
  · intro k hk
    show dictHasKey (mergeAndPatch loaded) k = true
    unfold mergeAndPatch
    split
    · exact hk
    · exact dictHasKey_merge DEFAULT_CONFIG loaded k hk
    · split
      · exact dictHasKey_set _ "colors" k _
          (dictHasKey_merge DEFAULT_CONFIG loaded k hk)
      · exact hk
  · intro c hc
    show cfgColorGet (mergeAndPatch loaded) "label" = _
    rw [mergeAndPatch_of_colors_obj loaded c hnd hc]
    have hmerge : dictGet (dictMerge DEFAULT_CONFIG loaded) "colors"
        = some (JValue.jobj c) :=
      dictGet_merge_of_some DEFAULT_CONFIG loaded "colors" _ hnd hc
    cases hl : dictHasKey c "label" with
    | true =>
      rw [if_pos rfl]
      unfold cfgColorGet
      rw [hmerge]
      unfold dictHasKey at hl
      cases hv : dictGet c "label" with
      | some v => simp [hv]
      | none => rw [hv] at hl; simp at hl
    | false =>
      simp only [Bool.false_eq_true, if_false]
      unfold cfgColorGet
      rw [dictGet_set, if_pos rfl]
      show dictGet (dictSet c "label" (JValue.jstr "red")) "label" = _
      rw [dictGet_set, if_pos rfl]
      unfold dictHasKey at hl
      cases hv : dictGet c "label" with
      | some v => rw [hv] at hl; simp at hl
      | none => simp [hv]

/-- Witness for the amended C1 theorem, at the spec's own example
document: the merged configuration keeps all top-level fields (checked
here on `thresholds`) and `colors.label` falls back to `"red"`. -/
theorem load_config_merge_amended_witness :
    ((USER_DOC.map Prod.fst).Nodup
      ∧ dictHasKey DEFAULT_CONFIG "thresholds" = true)
    ∧ dictHasKey (load_config (some (some (JValue.jobj USER_DOC)))) "thresholds" = true
    ∧ cfgColorGet (load_config (some (some (JValue.jobj USER_DOC)))) "label"
        = some ((dictGet [("value_low", JValue.jstr "blue")] "label").getD
            (JValue.jstr "red")) := by
  refine ⟨⟨by decide, by decide⟩, ?_, ?_⟩
  · exact (load_config_merge_amended USER_DOC (by decide)).1 "thresholds" (by decide)
  · exact (load_config_merge_amended USER_DOC (by decide)).2
      [("value_low", JValue.jstr "blue")] rfl

/-! ## Styled-string segments (for the visible-width contract)

A string "interleaving plain content with color/style control
sequences" is the rendering of a list of segments: plain chunks (no ESC
byte), CSI sequences (parameter bytes, intermediate bytes, one final
byte) and two-byte escapes. -/

inductive Seg where
  | plain : List Char → Seg
  | csi : List Char → List Char → Char → Seg
  | esc2 : Char → Seg

def Seg.render : Seg → List Char
  | Seg.plain cs => cs
  | Seg.csi ps ins f => ESC :: '[' :: (ps ++ ins ++ [f])
  | Seg.esc2 d => [ESC, d]

def Seg.wfb : Seg → Bool
  | Seg.plain cs => cs.all fun c => !(c == ESC)
  | Seg.csi ps ins f => ps.all isParamByte && ins.all isInterByte && isFinalByte f
  | Seg.esc2 d => isFeByte d

/-- The visible content of a segment. -/
def Seg.plainChars : Seg → List Char
  | Seg.plain cs => cs
  | _ => []

def Seg.plainLen : Seg → ℕ
  | Seg.plain cs => cs.length
  | _ => 0

def renderSegs (segs : List Seg) : String :=
  String.mk (segs.map Seg.render).flatten

theorem plainLen_eq_length_plainChars (s : Seg) :
    s.plainLen = s.plainChars.length := by
  cases s <;> rfl

theorem stripAnsi_seg_append (s : Seg) (rest : List Char)
    (h : s.wfb = true) :
    stripAnsi (s.render ++ rest) = s.plainChars ++ stripAnsi rest := by
  match s with
  | Seg.plain cs =>
    simp only [Seg.wfb, List.all_eq_true, Bool.not_eq_eq_eq_not, Bool.not_true,
      beq_eq_false_iff_ne, ne_eq] at h
    exact stripAnsi_plain_append cs rest h
  | Seg.csi ps ins f =>
    simp only [Seg.wfb, Bool.and_eq_true, List.all_eq_true] at h
    show stripAnsi ((ESC :: '[' :: (ps ++ ins ++ [f])) ++ rest) = stripAnsi rest
    have he : (ESC :: '[' :: (ps ++ ins ++ [f])) ++ rest
        = ESC :: '[' :: (ps ++ ins ++ f :: rest) := by
      simp
    rw [he]
    exact stripAnsi_csi_append ps ins f rest h.1.1 h.1.2 h.2
  | Seg.esc2 d =>
    show stripAnsi (ESC :: d :: rest) = stripAnsi rest
    exact stripAnsi_fe_append d rest h

theorem stripAnsi_renderSegs (segs : List Seg) (h : ∀ s ∈ segs, s.wfb = true) :
    stripAnsi (segs.map Seg.render).flatten = (segs.map Seg.plainChars).flatten := by
  induction segs with
  | nil => simp [stripAnsi_nil]
  | cons s rest ih =>
    simp only [List.map_cons, List.flatten_cons]
    rw [stripAnsi_seg_append s _ (h s (by simp)), ih fun t ht => h t (by simp [ht])]

/-- **C2.**  `visible_len` of any interleaving of plain content and ANSI
control sequences is the total length of the plain content — i.e. the
length of the string after all control sequences are removed — and on a
string with no sequences at all it is the ordinary length. -/
theorem visible_len_spec :
    (∀ segs : List Seg, (∀ s ∈ segs, s.wfb = true) →
      visible_len (renderSegs segs) = (segs.map Seg.plainLen).sum)
    ∧ (∀ s : String, (∀ c ∈ s.data, ¬ c = ESC) → visible_len s = s.length) := by
  constructor
  · intro segs h
    show (stripAnsi (renderSegs segs).data).length = _
    have hdata : (renderSegs segs).data = (segs.map Seg.render).flatten := rfl
    rw [hdata, stripAnsi_renderSegs segs h, List.length_flatten, List.map_map]
    congr 1
    exact List.map_congr_left fun s _ => (plainLen_eq_length_plainChars s).symm
  · exact visible_len_of_no_esc

/-- Witness segments: a red-colored `"OK"` followed by a reset. -/
def SEGS0 : List Seg :=
  [Seg.csi ['3', '1'] [] 'm', Seg.plain ['O', 'K'], Seg.csi ['0'] [] 'm']

/-- Witness for C2 at concrete inputs: the styled two-character string
has visible width 2, and a plain string has its ordinary length. -/
theorem visible_len_spec_witness :
    ((∀ s ∈ SEGS0, s.wfb = true) ∧ visible_len (renderSegs SEGS0) = 2)
    ∧ ((∀ c ∈ ("OK" : String).data, ¬ c = ESC)
        ∧ visible_len "OK" = ("OK" : String).length) := by
  refine ⟨⟨by decide, ?_⟩, ⟨by decide, ?_⟩⟩
  · rw [visible_len_spec.1 SEGS0 (by decide)]
    decide
  · exact visible_len_spec.2 "OK" (by decide)

/-! ## Row and gauge theorems -/

theorem string_mk_data (l : List Char) : (String.mk l).data = l := rfl

theorem string_data_append (a b : String) : (a ++ b).data = a.data ++ b.data := rfl

/-- **C3.**  `draw_row` emits left border (in the border color, reset
right after), one inset space, the untruncated content, `max(0, (W-4) -
visible_width(content))` padding spaces, one inset space and the right
border; the padding is zero when the visible width is exactly `W - 4`
and is clamped to zero (never negative) when it exceeds `W - 4`. -/
theorem draw_row_spec (content border_color : String) :
    draw_row content border_color =
      border_color ++ "║" ++ S_RESET ++ " " ++ content ++
        String.mk (List.replicate
          (Int.toNat (max 0 ((W : ℤ) - 4 - (visible_len content : ℤ)))) ' ') ++ " " ++
        border_color ++ "║" ++ S_RESET
    ∧ ((visible_len content : ℤ) = (W : ℤ) - 4 →
        Int.toNat (max 0 ((W : ℤ) - 4 - (visible_len content : ℤ))) = 0)
    ∧ ((W : ℤ) - 4 < (visible_len content : ℤ) →
        Int.toNat (max 0 ((W : ℤ) - 4 - (visible_len content : ℤ))) = 0) := by
  refine ⟨?_, ?_, ?_⟩
  · have hcount : (if ((W : ℤ) - 2 - (visible_len content : ℤ) - 2) < 0 then (0 : ℤ)
        else ((W : ℤ) - 2 - (visible_len content : ℤ) - 2)).toNat
        = Int.toNat (max 0 ((W : ℤ) - 4 - (visible_len content : ℤ))) := by
      by_cases hc : ((W : ℤ) - 2 - (visible_len content : ℤ) - 2) < 0
      · rw [if_pos hc]; omega
      · rw [if_neg hc]; omega
    show border_color ++ "║" ++ S_RESET ++ " " ++ content ++
        String.mk (List.replicate
          (if ((W : ℤ) - 2 - (visible_len content : ℤ) - 2) < 0 then (0 : ℤ)
           else ((W : ℤ) - 2 - (visible_len content : ℤ) - 2)).toNat ' ') ++ " " ++
        border_color ++ "║" ++ S_RESET = _
    rw [hcount]
  · intro h; omega
  · intro h; omega

/-- A 62-character plain content line (62 = `W - 4`). -/
def CONTENT62 : String := String.mk (List.replicate 62 'x')

/-- Witness for C3: at a content line of visible width exactly `W - 4`,
the padding is zero and the emitted row is border, space, content,
no padding, space, border. -/
theorem draw_row_spec_witness :
    (visible_len CONTENT62 : ℤ) = (W : ℤ) - 4
    ∧ Int.toNat (max 0 ((W : ℤ) - 4 - (visible_len CONTENT62 : ℤ))) = 0
    ∧ draw_row CONTENT62 "" =
        "" ++ "║" ++ S_RESET ++ " " ++ CONTENT62 ++
          String.mk (List.replicate
            (Int.toNat (max 0 ((W : ℤ) - 4 - (visible_len CONTENT62 : ℤ)))) ' ') ++ " " ++
          "" ++ "║" ++ S_RESET := by
  have hv : visible_len CONTENT62 = 62 := by
    have h := visible_len_of_no_esc CONTENT62 (by decide)
    rw [h]
    decide
  refine ⟨?_, ?_, (draw_row_spec CONTENT62 "").1⟩
  · rw [hv]; norm_num [W]
  · exact (draw_row_spec CONTENT62 "").2.1 (by rw [hv]; norm_num [W])

/-- The claim's fill formula for the gauge:
`clamp(floor(L * p / 100), 0, L)`. -/
def gauge_fill (p : ℚ) (L : ℕ) : ℕ :=
  (min (L : ℤ) (max 0 ⌊(L : ℚ) * p / 100⌋)).toNat

theorem gauge_fill_le (p : ℚ) (L : ℕ) : gauge_fill p L ≤ L := by
  unfold gauge_fill
  omega

theorem gauge_fill_of_nonpos (p : ℚ) (L : ℕ) (hp : p ≤ 0) : gauge_fill p L = 0 := by
  have hL : (0 : ℚ) ≤ (L : ℚ) := by positivity
  have h1 : (L : ℚ) * p ≤ 0 := by nlinarith
  have h2 : (L : ℚ) * p / 100 ≤ 0 := by linarith
  have h3 : ⌊(L : ℚ) * p / 100⌋ ≤ 0 := Int.floor_nonpos h2
  unfold gauge_fill
  omega

theorem gauge_fill_of_ge_100 (p : ℚ) (L : ℕ) (hp : 100 ≤ p) : gauge_fill p L = L := by
  have hL : (0 : ℚ) ≤ (L : ℚ) := by positivity
  have h1 : (L : ℚ) * 100 ≤ (L : ℚ) * p := by nlinarith
  have h2 : (L : ℚ) ≤ (L : ℚ) * p / 100 := by linarith
  have h3 : (L : ℤ) ≤ ⌊(L : ℚ) * p / 100⌋ := by
    rw [Int.le_floor]
    exact_mod_cast h2
  unfold gauge_fill
  omega

/-- Closed form of the gauge string in terms of the claim's fill
formula. -/
theorem draw_bar_eq (cfg : Config) (p : ℚ) (L : ℕ) :
    draw_bar cfg p L = "[" ++ get_color_by_percent cfg p ++
        String.mk (List.replicate (gauge_fill p L) '█' ++
          List.replicate (L - gauge_fill p L) '-') ++ S_RESET ++ "]" := by
  have harith : ((L : ℤ) - min (L : ℤ) (max 0 ⌊(L : ℚ) * p / 100⌋)).toNat
      = L - gauge_fill p L := by
    unfold gauge_fill
    omega
  show "[" ++ get_color_by_percent cfg p ++
      String.mk (List.replicate (min (L : ℤ) (max 0 ⌊(L : ℚ) * p / 100⌋)).toNat '█' ++
        List.replicate ((L : ℤ) - min (L : ℤ) (max 0 ⌊(L : ℚ) * p / 100⌋)).toNat '-') ++
      S_RESET ++ "]" = _
  rw [harith]
  rfl

theorem get_color_by_percent_count (cfg : Config) (p : ℚ) (c : Char)
    (hc : c = '█' ∨ c = '-') : (get_color_by_percent cfg p).data.count c = 0 := by
  unfold get_color_by_percent
  by_cases h1 : p < cfg.thresholds_mid
  · rw [if_pos h1]; exact get_ansi_count_glyph _ c hc
  · rw [if_neg h1]
    by_cases h2 : p < cfg.thresholds_high
    · rw [if_pos h2]; exact get_ansi_count_glyph _ c hc
    · rw [if_neg h2]; exact get_ansi_count_glyph _ c hc

/-- **C4.**  The gauge renders exactly `clamp(floor(L*p/100), 0, L)`
filled block glyphs followed by the complementary filler glyphs inside
bracket delimiters, for every percentage (out-of-range included) and
length; the glyph total is always `L`, with zero filled for `p ≤ 0` and
all `L` filled for `p ≥ 100`. -/
theorem draw_bar_spec (cfg : Config) (p : ℚ) (L : ℕ) :
    draw_bar cfg p L = "[" ++ get_color_by_percent cfg p ++
        String.mk (List.replicate (gauge_fill p L) '█' ++
          List.replicate (L - gauge_fill p L) '-') ++ S_RESET ++ "]"
    ∧ (draw_bar cfg p L).data.count '█' = gauge_fill p L
    ∧ (draw_bar cfg p L).data.count '-' = L - gauge_fill p L
    ∧ (draw_bar cfg p L).data.count '█' + (draw_bar cfg p L).data.count '-' = L
    ∧ (p ≤ 0 → gauge_fill p L = 0)
    ∧ (100 ≤ p → gauge_fill p L = L) := by
  have hblock : (draw_bar cfg p L).data.count '█' = gauge_fill p L := by
    rw [draw_bar_eq cfg p L]
    simp only [string_data_append, string_mk_data, List.count_append]
    rw [get_color_by_percent_count cfg p '█' (Or.inl rfl)]
    simp only [List.count_replicate_self, List.count_replicate, beq_iff_eq]
    rw [if_neg (show ¬ ('-' = '█') from by decide)]
    have e1 : List.count '█' ("[" : String).data = 0 := by decide
    have e2 : List.count '█' S_RESET.data = 0 := by decide
    have e3 : List.count '█' ("]" : String).data = 0 := by decide
    rw [e1, e2, e3]
    omega
  have hdash : (draw_bar cfg p L).data.count '-' = L - gauge_fill p L := by
    rw [draw_bar_eq cfg p L]
    simp only [string_data_append, string_mk_data, List.count_append]
    rw [get_color_by_percent_count cfg p '-' (Or.inr rfl)]
    simp only [List.count_replicate_self, List.count_replicate, beq_iff_eq]
    rw [if_neg (show ¬ ('█' = '-') from by decide)]
    have e1 : List.count '-' ("[" : String).data = 0 := by decide
    have e2 : List.count '-' S_RESET.data = 0 := by decide
    have e3 : List.count '-' ("]" : String).data = 0 := by decide
    rw [e1, e2, e3]
    omega
  refine ⟨draw_bar_eq cfg p L, hblock, hdash, ?_, gauge_fill_of_nonpos p L,
    gauge_fill_of_ge_100 p L⟩
  rw [hblock, hdash]
  have := gauge_fill_le p L
  omega

/-- Witness for C4 at concrete out-of-range percentages: at `p = 150`
the 4-glyph gauge is fully filled, at `p = -5` it is empty. -/
theorem draw_bar_spec_witness :
    ((100 : ℚ) ≤ 150 ∧ gauge_fill 150 4 = 4)
    ∧ ((-5 : ℚ) ≤ 0 ∧ gauge_fill (-5) 4 = 0) :=
  ⟨⟨by norm_num, (draw_bar_spec defaultConfigRec 150 4).2.2.2.2.2 (by norm_num)⟩,
   ⟨by norm_num, (draw_bar_spec defaultConfigRec (-5) 4).2.2.2.2.1 (by norm_num)⟩⟩

theorem stripAnsi_get_color_append (cfg : Config) (p : ℚ) (rest : List Char) :
    stripAnsi ((get_color_by_percent cfg p).data ++ rest) = stripAnsi rest := by
  unfold get_color_by_percent
  by_cases h1 : p < cfg.thresholds_mid
  · rw [if_pos h1]; exact stripAnsi_get_ansi_append _ rest
  · rw [if_neg h1]
    by_cases h2 : p < cfg.thresholds_high
    · rw [if_pos h2]; exact stripAnsi_get_ansi_append _ rest
    · rw [if_neg h2]; exact stripAnsi_get_ansi_append _ rest

/-- **C10.**  The visible width of a rendered gauge is exactly `L + 2`:
the color and reset control sequences contribute zero width, leaving the
two bracket delimiters and the `L` bar glyphs. -/
theorem visible_len_draw_bar (cfg : Config) (p : ℚ) (L : ℕ) :
    visible_len (draw_bar cfg p L) = L + 2 := by
  unfold visible_len
  rw [draw_bar_eq cfg p L]
  have hd : ("[" ++ get_color_by_percent cfg p ++
      String.mk (List.replicate (gauge_fill p L) '█' ++
        List.replicate (L - gauge_fill p L) '-') ++ S_RESET ++ "]").data
      = '[' :: ((get_color_by_percent cfg p).data ++
          ((List.replicate (gauge_fill p L) '█' ++
            List.replicate (L - gauge_fill p L) '-') ++
            (S_RESET.data ++ [']']))) := by
    simp [string_data_append, string_mk_data, List.append_assoc]
  rw [hd]
  rw [stripAnsi_cons_of_ne '[' _ (by decide)]
  rw [stripAnsi_get_color_append]
  have hbar : ∀ c ∈ List.replicate (gauge_fill p L) '█' ++
      List.replicate (L - gauge_fill p L) '-', ¬ c = ESC := by
    intro c hc
    rcases List.mem_append.mp hc with h | h
    · rw [List.eq_of_mem_replicate h]; decide
    · rw [List.eq_of_mem_replicate h]; decide
  rw [stripAnsi_plain_append _ _ hbar]
  rw [stripAnsi_color_append S_RESET [']'] (by decide)]
  rw [stripAnsi_cons_of_ne ']' _ (by decide), stripAnsi_nil]
  simp only [List.length_cons, List.length_append, List.length_replicate,
    List.length_nil]
  have := gauge_fill_le p L
  omega

/-! ## Byte-format theorems -/

/-- One closed form for the unit loop: when the magnitude sits in the
`k`-th 1024-band (and `k` has a unit), the result is the magnitude
scaled down `k` times, formatted with that unit. -/
theorem get_size_aux_spec (suffix : String) (units : List String) (b : ℚ) (k : ℕ)
    (h0 : 0 ≤ b) (hk : k < units.length) (hhi : b < 1024 ^ (k + 1))
    (hlo : 1024 ^ k ≤ b ∨ k = 0) :
    get_size_aux suffix units b
      = some (format2f (b / 1024 ^ k) ++ units.getD k "" ++ suffix) := by
  induction units generalizing b k with
  | nil => simp at hk
  | cons u rest ih =>
    cases k with
    | zero =>
      have hb : b < 1024 := by
        have h := hhi
        rw [pow_one] at h
        exact h
      simp only [get_size_aux, if_pos hb]
      rw [pow_zero, div_one, List.getD_cons_zero]
    | succ k' =>
      have hge : (1024 : ℚ) ^ (k' + 1) ≤ b := by
        rcases hlo with h | h
        · exact h
        · exact absurd h (Nat.succ_ne_zero k')
      have h1024 : (1024 : ℚ) ≤ 1024 ^ (k' + 1) := by
        calc (1024 : ℚ) = 1024 ^ 1 := (pow_one _).symm
        _ ≤ 1024 ^ (k' + 1) := by
          apply pow_le_pow_right₀ (by norm_num) (by omega)
      have hb : ¬ b < 1024 := not_lt.mpr (le_trans h1024 hge)
      simp only [get_size_aux, if_neg hb]
      have hhi2 : b / 1024 < 1024 ^ (k' + 1) := by
        rw [div_lt_iff₀ (by norm_num : (0 : ℚ) < 1024)]
        calc b < 1024 ^ (k' + 1 + 1) := hhi
        _ = 1024 ^ (k' + 1) * 1024 := by rw [pow_succ]
      have hlo2 : (1024 : ℚ) ^ k' ≤ b / 1024 := by
        rw [le_div_iff₀ (by norm_num : (0 : ℚ) < 1024)]
        calc (1024 : ℚ) ^ k' * 1024 = 1024 ^ (k' + 1) := by rw [pow_succ]
        _ ≤ b := hge
      rw [ih (b / 1024) k' (by positivity) (by simpa using hk) hhi2 (Or.inl hlo2)]
      have hdiv : b / 1024 / 1024 ^ k' = b / 1024 ^ (k' + 1) := by
        rw [div_div, pow_succ, mul_comm]
      rw [hdiv, List.getD_cons_succ]

/-- **C5 (code bug).**  The unit loop has no final return: at
`1024 ^ 6` bytes the magnitude is still 1024 after the last (`"P"`)
division, the loop exhausts the unit list and the function returns
`None` (which the dashboard would render as the text `None`) instead of
a formatted string; just below the overflow range it still returns the
scaled `P` value. -/
theorem get_size_overflow :
    get_size ((1024 : ℚ) ^ 6) "B" = none
    ∧ get_size (1023 * (1024 : ℚ) ^ 5) "B" = some "1023.00PB" := by
  constructor
  · norm_num [get_size, get_size_aux]
  · norm_num [get_size, get_size_aux, format2f, roundHalfEven]
    rfl

/-- **C6.**  Below the overflow range, `get_size` repeatedly divides by
1024, advancing through the suffixes (none, K, M, G, T, P) until the
magnitude is below 1024, and formats with two decimals, the suffix and
the byte marker; in particular the four concrete values of the spec. -/
theorem get_size_spec :
    (∀ (b : ℚ) (k : ℕ), 0 ≤ b → k < 6 → b < 1024 ^ (k + 1) →
      (1024 ^ k ≤ b ∨ k = 0) →
      get_size b "B"
        = some (format2f (b / 1024 ^ k) ++
            ["", "K", "M", "G", "T", "P"].getD k "" ++ "B"))
    ∧ get_size 0 "B" = some "0.00B"
    ∧ get_size 1024 "B" = some "1.00KB"
    ∧ get_size 1536 "B" = some "1.50KB"
    ∧ get_size 1073741824 "B" = some "1.00GB" := by
  refine ⟨?_, ?_, ?_, ?_, ?_⟩
  · intro b k h0 hk hhi hlo
    exact get_size_aux_spec "B" ["", "K", "M", "G", "T", "P"] b k h0
      (by simpa using hk) hhi hlo
  · norm_num [get_size, get_size_aux, format2f, roundHalfEven]
    rfl
  · norm_num [get_size, get_size_aux, format2f, roundHalfEven]
    rfl
  · norm_num [get_size, get_size_aux, format2f, roundHalfEven]
    rfl
  · norm_num [get_size, get_size_aux, format2f, roundHalfEven]
    rfl

/-- Witness for C6 at `b = 1536`, `k = 1` (the `"1.50KB"` example). -/
theorem get_size_spec_witness :
    ((0 : ℚ) ≤ 1536 ∧ (1 : ℕ) < 6 ∧ (1536 : ℚ) < 1024 ^ (1 + 1)
      ∧ ((1024 : ℚ) ^ 1 ≤ 1536 ∨ (1 : ℕ) = 0))
    ∧ get_size 1536 "B"
        = some (format2f ((1536 : ℚ) / 1024 ^ 1) ++
            ["", "K", "M", "G", "T", "P"].getD 1 "" ++ "B") := by
  refine ⟨⟨by norm_num, by norm_num, by norm_num, Or.inl (by norm_num)⟩, ?_⟩
  exact get_size_spec.1 1536 1 (by norm_num) (by norm_num) (by norm_num)
    (Or.inl (by norm_num))

/-! ## Sampling-loop theorems -/

theorem getD_congr_default {α : Type} (l : List α) (i : ℕ) (d1 d2 : α)
    (h : i < l.length) : l.getD i d1 = l.getD i d2 := by
  rw [List.getD_eq_getElem?_getD, List.getD_eq_getElem?_getD,
    List.getElem?_eq_getElem h]
  rfl

/-- **C7.**  Every iteration's throughput pair is the difference of the
current and previous raw counters divided by the refresh rate, with the
current counters becoming the next iteration's previous counters; the
spec's concrete scenario yields 1000 B/s up and 2000 B/s down. -/
theorem net_throughput_spec :
    (∀ (init : NetIO) (samples : List NetIO) (rr : ℚ) (i : ℕ),
      i < samples.length →
      (net_loop init samples rr).getD i (0, 0) =
        net_rates (if i = 0 then init else samples.getD (i - 1) init)
          (samples.getD i init) rr)
    ∧ net_rates ⟨1000, 2000⟩ ⟨2000, 4000⟩ 1 = (1000, 2000) := by
  constructor
  · intro init samples rr i
    induction samples generalizing init i with
    | nil => intro h; simp at h
    | cons net rest ih =>
      intro h
      cases i with
      | zero => simp [net_loop]
      | succ j =>
        have hlen : j < rest.length := by simpa using h
        simp only [net_loop, List.getD_cons_succ]
        rw [ih net j hlen]
        rw [getD_congr_default rest j net init hlen]
        cases j with
        | zero => simp
        | succ j' =>
          have hj : j' < rest.length := by omega
          simp only [Nat.add_sub_cancel, List.getD_cons_succ]
          rw [getD_congr_default rest j' net init hj]
          simp
  · norm_num [net_rates]

/-- Witness for C7: the spec's scenario, previous counters (1000, 2000),
current (2000, 4000), refresh rate 1. -/
theorem net_throughput_spec_witness :
    (0 < ([⟨2000, 4000⟩] : List NetIO).length)
    ∧ (net_loop ⟨1000, 2000⟩ [⟨2000, 4000⟩] 1).getD 0 (0, 0) = (1000, 2000) := by
  refine ⟨by decide, ?_⟩
  rw [net_throughput_spec.1 ⟨1000, 2000⟩ [⟨2000, 4000⟩] 1 0 (by decide)]
  norm_num [net_rates]

/-- **C8.**  The probe returns the elapsed wall time in milliseconds on
success and `None` on every failure; the `try`/`except` wrapper makes it
total (no unhandled error can escape), and the socket timeout it
configures is 0.5 seconds. -/
theorem get_ping_spec (connect : Option ProbeError) (t0 t1 : ℚ) :
    (connect = none → get_ping connect t0 t1 = some ((t1 - t0) * 1000))
    ∧ (∀ e, connect = some e → get_ping connect t0 t1 = none)
    ∧ ping_timeout = 1/2 := by
  refine ⟨?_, ?_, rfl⟩
  · intro h
    subst h
    rfl
  · intro e h
    subst h
    rfl

/-- Witness for C8: a successful probe of 1 second yields 1000 ms, a
timed-out probe yields `none`. -/
theorem get_ping_spec_witness :
    ((none : Option ProbeError) = none
      ∧ get_ping none 0 1 = some (((1 : ℚ) - 0) * 1000))
    ∧ ((some ProbeError.timeout : Option ProbeError) = some ProbeError.timeout
      ∧ get_ping (some ProbeError.timeout) 0 1 = none) :=
  ⟨⟨rfl, (get_ping_spec none 0 1).1 rfl⟩,
   ⟨rfl, (get_ping_spec (some ProbeError.timeout) 0 1).2.1 ProbeError.timeout rfl⟩⟩

/-- **C9.**  With logging enabled: a fresh path gets the header row
exactly once followed by the data row; an existing file gets exactly one
data row appended with its prior contents untouched; header and data
rows have 7 fields; an unreachable ping is logged as 0; three samples to
a fresh path give one header row and three data rows. -/
theorem log_metrics_spec (cfg : Config) (hlog : cfg.logging_enabled = true)
    (h m s : ℕ) (cpu ram disk down up : ℚ) (ping : Option ℚ) :
    log_metrics cfg none h m s cpu ram disk down up ping
        = some [csv_header, log_row h m s cpu ram disk down up ping]
    ∧ (∀ rows, log_metrics cfg (some rows) h m s cpu ram disk down up ping
        = some (rows ++ [log_row h m s cpu ram disk down up ping]))
    ∧ csv_header.length = 7
    ∧ (log_row h m s cpu ram disk down up ping).length = 7
    ∧ (ping = none →
        (log_row h m s cpu ram disk down up ping).getD 6 (CsvField.num 1)
          = CsvField.num 0)
    ∧ (∀ x1 x2 x3 : SampleRow, log_run cfg none [x1, x2, x3]
        = some [csv_header, log_row_of x1, log_row_of x2, log_row_of x3]) := by
  refine ⟨?_, ?_, rfl, rfl, ?_, ?_⟩
  · simp [log_metrics, hlog]
  · intro rows
    simp [log_metrics, hlog]
  · intro hp
    subst hp
    rfl
  · intro x1 x2 x3
    simp [log_run, log_metrics, hlog, log_row_of]

/-- The default configuration with logging forced on (the `--log`
flag). -/
def CFG_LOG : Config :=
  ⟨1/2, "8.8.8.8", 53, true, true, "system_metrics.csv",
   50, 80, "red", "green", "yellow", "red", "red"⟩

/-- Witness for C9 at a concrete sample written to a fresh file, with an
unreachable ping. -/
theorem log_metrics_spec_witness :
    CFG_LOG.logging_enabled = true
    ∧ log_metrics CFG_LOG none 12 30 45 10 20 30 40 50 none
        = some [csv_header, log_row 12 30 45 10 20 30 40 50 none]
    ∧ (none : Option ℚ) = none
    ∧ (log_row 12 30 45 10 20 30 40 50 none).getD 6 (CsvField.num 1)
        = CsvField.num 0 :=
  ⟨rfl, (log_metrics_spec CFG_LOG rfl 12 30 45 10 20 30 40 50 none).1, rfl,
   (log_metrics_spec CFG_LOG rfl 12 30 45 10 20 30 40 50 none).2.2.2.2.1 rfl⟩

end Monitor
